import Mathlib

/-!
Verification of the paginated/searchable list-fetch and donor-aggregation
core of the Good-for-good charity management application.

The aggregator is embedded from `processDonations` in
`src/app/donors/page.tsx` (lines 57-82): a JS `Map` from donor name to a
running summary, folded over the donation list, then sorted by
`totalAmount` descending with JS's stable `Array.prototype.sort`.

Dates in the source are dynamically typed (`any`): either a Firestore
`Timestamp` (which has `.toDate()`), a plain string, or a number.  The
embedding is generic over the date payload type `α`, with two functions
describing the JS behaviour of a date value: `toD` models `.toDate()`
(returning `none` when the call would raise a `TypeError`, e.g. on a plain
string) and `tru` models JS truthiness of the value.  `DateValue` is the
concrete instantiation used for the donors page.
-/

namespace GFG

/-- Concrete dynamic date payload: a Firestore timestamp carrying an
instant (modelled as a natural number), a plain string, or a number. -/
inductive DateValue where
  | ts (t : Nat)
  | str (s : String)
  | num (n : Int)
  deriving DecidableEq

/-- JS `date.toDate()`: succeeds only on a Firestore timestamp; on a plain
string or number the call raises, modelled as `none`. -/
def toDateV : DateValue → Option Nat
  | .ts t => some t
  | .str _ => none
  | .num _ => none

/-- JS truthiness of a date value: a timestamp object is truthy, a string
is truthy iff nonempty, a number is truthy iff nonzero. -/
def truthyV : DateValue → Bool
  | .ts _ => true
  | .str s => s.length != 0
  | .num n => n != 0

/-- One donation record as consumed by `processDonations`:
`{donor, amount, date}` with a possibly absent (`null`) date. -/
structure DonationRec (α : Type) where
  donor : String
  amount : Int
  date : Option α
  deriving DecidableEq

/-- The per-donor accumulator / output row `DonorSummary` of
`src/app/donors/page.tsx` (lines 10-15). -/
structure DonorSummary (α : Type) where
  name : String
  totalAmount : Int
  lastDonation : Option α
  donationCount : Nat
  deriving DecidableEq

/-- The `lastDonation` update of `processDonations` (lines 71-75):
`if (!existing.lastDonation || (donation.date && existing.lastDonation &&
donation.date.toDate() > existing.lastDonation.toDate()))` then the field
becomes `donation.date`, else it is kept.  Short-circuit evaluation is
preserved; a failing `.toDate()` call (result `none`) aborts the whole
computation, modelling the raised `TypeError`. -/
def updateLastDonation (toD : α → Option Nat) (tru : α → Bool) :
    Option α → Option α → Option (Option α)
  | none, dDate => some dDate
  | some e, dDate =>
    if tru e = false then some dDate
    else
      match dDate with
      | none => some (some e)
      | some d =>
        if tru d = false then some (some e)
        else
          match toD d, toD e with
          | some nd, some od => some (if od < nd then some d else some e)
          | _, _ => none

/-- Initial accumulator for a donor seen for the first time
(lines 61-66 of the source). -/
def emptySummary (k : String) : DonorSummary α := ⟨k, 0, none, 0⟩

/-- JS `Map.get`, on the insertion-ordered association list that models
the `donorMap`. -/
def findEntry : List (String × DonorSummary α) → String → Option (DonorSummary α)
  | [], _ => none
  | (k, v) :: rest, key => if k = key then some v else findEntry rest key

/-- JS `Map.set`: an existing key keeps its insertion position, a new key
is appended at the end. -/
def setEntry : List (String × DonorSummary α) → String → DonorSummary α →
    List (String × DonorSummary α)
  | [], key, v => [(key, v)]
  | (k, w) :: rest, key, v =>
    if k = key then (key, v) :: rest else (k, w) :: setEntry rest key v

/-- Body of the `donations.forEach` loop of `processDonations`
(lines 60-78): read or create the accumulator, add the amount, bump the
count, update `lastDonation`, and store the entry back. -/
def applyDonation (toD : α → Option Nat) (tru : α → Bool)
    (m : List (String × DonorSummary α)) (d : DonationRec α) :
    Option (List (String × DonorSummary α)) :=
  let cur := (findEntry m d.donor).getD (emptySummary d.donor)
  match updateLastDonation toD tru cur.lastDonation d.date with
  | none => none
  | some nl =>
    some (setEntry m d.donor
      ⟨d.donor, cur.totalAmount + d.amount, nl, cur.donationCount + 1⟩)

/-- The `forEach` fold over all donations. -/
def buildDonorMap (toD : α → Option Nat) (tru : α → Bool) :
    List (String × DonorSummary α) → List (DonationRec α) →
    Option (List (String × DonorSummary α))
  | m, [] => some m
  | m, d :: ds =>
    match applyDonation toD tru m d with
    | none => none
    | some m2 => buildDonorMap toD tru m2 ds

/-- Stable descending insertion by `totalAmount`; inserting each element
after all already-placed elements of greater-or-equal total reproduces the
result of JS's stable `sort((a, b) => b.totalAmount - a.totalAmount)`. -/
def insertByTotal (s : DonorSummary α) :
    List (DonorSummary α) → List (DonorSummary α)
  | [] => [s]
  | t :: rest =>
    if t.totalAmount < s.totalAmount then s :: t :: rest
    else t :: insertByTotal s rest

/-- Stable sort of the summaries by `totalAmount` descending
(line 80-81 of the source). -/
def sortByTotal (l : List (DonorSummary α)) : List (DonorSummary α) :=
  l.foldl (fun acc s => insertByTotal s acc) []

/-- Generic `processDonations`: fold the donations into the map, then
return `Array.from(donorMap.values())` sorted by total descending.
`none` models a raised `TypeError` from an unguarded `.toDate()` call. -/
def processDonationsG (toD : α → Option Nat) (tru : α → Bool)
    (ds : List (DonationRec α)) : Option (List (DonorSummary α)) :=
  (buildDonorMap toD tru [] ds).map (fun m => sortByTotal (m.map Prod.snd))

/-- The donors-page `processDonations`, with the concrete dynamic date
values. -/
def processDonations (ds : List (DonationRec DateValue)) :
    Option (List (DonorSummary DateValue)) :=
  processDonationsG toDateV truthyV ds

/-- Sum of the amounts of one donor's donations. -/
def donorAmountSum (k : String) (ds : List (DonationRec α)) : Int :=
  ((ds.filter (fun d => d.donor == k)).map (fun d => d.amount)).sum

/-- Number of one donor's donations. -/
def donorCount (k : String) (ds : List (DonationRec α)) : Nat :=
  (ds.filter (fun d => d.donor == k)).length

/-- Instant carried by a native timestamp date (0 otherwise). -/
def natDate (d : DonationRec DateValue) : Nat :=
  match d.date with
  | some (.ts t) => t
  | _ => 0

/-- Latest instant among one donor's donation dates. -/
def donorMaxDate (k : String) (ds : List (DonationRec DateValue)) : Nat :=
  ((ds.filter (fun d => d.donor == k)).map natDate).foldl max 0

/-- Every donation's date is a present, store-native timestamp. -/
def NativeDated (ds : List (DonationRec DateValue)) : Prop :=
  ∀ d ∈ ds, ∃ t, d.date = some (DateValue.ts t)

/-- Every present donation date is a store-native timestamp (absent dates
allowed). -/
def NativeOrAbsent (ds : List (DonationRec DateValue)) : Prop :=
  ∀ d ∈ ds, ∀ x, d.date = some x → ∃ t, x = DateValue.ts t

lemma findEntry_eq_none_iff {m : List (String × DonorSummary α)} {k : String} :
    findEntry m k = none ↔ k ∉ m.map Prod.fst := by
  induction m with
  | nil => simp [findEntry]
  | cons p rest ih =>
    obtain ⟨k1, v1⟩ := p
    by_cases h : k1 = k
    · subst h; simp [findEntry]
    · simp [findEntry, h, ih, Ne.symm h]

lemma findEntry_mem {m : List (String × DonorSummary α)} {k : String}
    {s : DonorSummary α} (h : findEntry m k = some s) : (k, s) ∈ m := by
  induction m with
  | nil => simp [findEntry] at h
  | cons p rest ih =>
    obtain ⟨k1, v1⟩ := p
    by_cases hk : k1 = k
    · subst hk
      simp [findEntry] at h
      subst h; exact List.mem_cons_self _ _
    · simp [findEntry, hk] at h
      exact List.mem_cons_of_mem _ (ih h)

lemma findEntry_of_mem {m : List (String × DonorSummary α)} {k : String}
    {s : DonorSummary α} (hnd : (m.map Prod.fst).Nodup) (h : (k, s) ∈ m) :
    findEntry m k = some s := by
  induction m with
  | nil => simp at h
  | cons p rest ih =>
    obtain ⟨k1, v1⟩ := p
    simp only [List.map_cons, List.nodup_cons] at hnd
    rcases List.mem_cons.mp h with heq | hmem
    · rw [← heq]; simp [findEntry]
    · have hk : k1 ≠ k := by
        intro hk; subst hk
        exact hnd.1 (List.mem_map.mpr ⟨(k1, s), hmem, rfl⟩)
      simp [findEntry, hk]
      exact ih hnd.2 hmem

lemma findEntry_setEntry_self {m : List (String × DonorSummary α)}
    {k : String} {v : DonorSummary α} :
    findEntry (setEntry m k v) k = some v := by
  induction m with
  | nil => simp [setEntry, findEntry]
  | cons p rest ih =>
    obtain ⟨k1, v1⟩ := p
    by_cases h : k1 = k
    · simp [setEntry, h, findEntry]
    · simp [setEntry, h, findEntry, ih]

lemma findEntry_setEntry_ne {m : List (String × DonorSummary α)}
    {k k2 : String} {v : DonorSummary α} (h : k2 ≠ k) :
    findEntry (setEntry m k v) k2 = findEntry m k2 := by
  induction m with
  | nil => simp [setEntry, findEntry, Ne.symm h]
  | cons p rest ih =>
    obtain ⟨k1, v1⟩ := p
    by_cases hk : k1 = k
    · subst hk
      simp [setEntry, findEntry, Ne.symm h]
    · simp [setEntry, hk, findEntry, ih]

lemma map_fst_setEntry_found {m : List (String × DonorSummary α)}
    {k : String} {v s : DonorSummary α} (h : findEntry m k = some s) :
    (setEntry m k v).map Prod.fst = m.map Prod.fst := by
  induction m with
  | nil => simp [findEntry] at h
  | cons p rest ih =>
    obtain ⟨k1, v1⟩ := p
    by_cases hk : k1 = k
    · subst hk; simp [setEntry]
    · simp [findEntry, hk] at h
      simp [setEntry, hk, ih h]

lemma map_fst_setEntry_new {m : List (String × DonorSummary α)}
    {k : String} {v : DonorSummary α} (h : findEntry m k = none) :
    (setEntry m k v).map Prod.fst = m.map Prod.fst ++ [k] := by
  induction m with
  | nil => simp [setEntry]
  | cons p rest ih =>
    obtain ⟨k1, v1⟩ := p
    by_cases hk : k1 = k
    · subst hk; simp [findEntry] at h
    · simp [findEntry, hk] at h
      simp [setEntry, hk, ih h]

lemma mem_setEntry {m : List (String × DonorSummary α)} {k : String}
    {v : DonorSummary α} {p : String × DonorSummary α}
    (h : p ∈ setEntry m k v) : p = (k, v) ∨ p ∈ m := by
  induction m with
  | nil =>
    simp [setEntry] at h
    exact Or.inl h
  | cons q rest ih =>
    obtain ⟨k1, v1⟩ := q
    by_cases hk : k1 = k
    · subst hk
      simp only [setEntry, if_pos rfl] at h
      rcases List.mem_cons.mp h with h | h
      · exact Or.inl h
      · exact Or.inr (List.mem_cons_of_mem _ h)
    · simp only [setEntry, if_neg hk] at h
      rcases List.mem_cons.mp h with h | h
      · exact Or.inr (by simp [h])
      · rcases ih h with h | h
        · exact Or.inl h
        · exact Or.inr (List.mem_cons_of_mem _ h)

lemma insertByTotal_perm (s : DonorSummary α) (l : List (DonorSummary α)) :
    List.Perm (insertByTotal s l) (s :: l) := by
  induction l with
  | nil => simp [insertByTotal]
  | cons t rest ih =>
    by_cases h : t.totalAmount < s.totalAmount
    · simp [insertByTotal, h]
    · simp only [insertByTotal, if_neg h]
      exact (ih.cons t).trans (List.Perm.swap s t rest)

lemma sortByTotal_perm (l : List (DonorSummary α)) :
    List.Perm (sortByTotal l) l := by
  suffices h : ∀ acc : List (DonorSummary α),
      List.Perm (l.foldl (fun acc s => insertByTotal s acc) acc) (acc ++ l) by
    simpa using h []
  induction l with
  | nil => intro acc; simp
  | cons x xs ih =>
    intro acc
    simp only [List.foldl_cons]
    exact (ih (insertByTotal x acc)).trans
      (((insertByTotal_perm x acc).append_right xs).trans
        (List.perm_middle.symm.trans (List.Perm.refl _)))

lemma pairwise_insertByTotal {s : DonorSummary α} {l : List (DonorSummary α)}
    (hl : l.Pairwise (fun a b => b.totalAmount ≤ a.totalAmount)) :
    (insertByTotal s l).Pairwise (fun a b => b.totalAmount ≤ a.totalAmount) := by
  induction l with
  | nil => simp [insertByTotal]
  | cons t rest ih =>
    rcases List.pairwise_cons.mp hl with ⟨ht, hrest⟩
    by_cases h : t.totalAmount < s.totalAmount
    · simp only [insertByTotal, if_pos h]
      refine List.pairwise_cons.mpr ⟨?_, hl⟩
      intro u hu
      rcases List.mem_cons.mp hu with h1 | h1
      · exact h1 ▸ le_of_lt h
      · exact le_trans (ht u h1) (le_of_lt h)
    · simp only [insertByTotal, if_neg h]
      refine List.pairwise_cons.mpr ⟨?_, ih hrest⟩
      intro u hu
      rcases List.mem_cons.mp ((insertByTotal_perm s rest).mem_iff.mp hu) with h1 | h1
      · exact h1 ▸ le_of_not_lt h
      · exact ht u h1

lemma donorAmountSum_append_self {d : DonationRec α} {k : String}
    (pre : List (DonationRec α)) (hk : d.donor = k) :
    donorAmountSum k (pre ++ [d]) = donorAmountSum k pre + d.amount := by
  simp [donorAmountSum, List.filter_append, hk]

lemma donorAmountSum_append_ne {d : DonationRec α} {k : String}
    (pre : List (DonationRec α)) (hk : ¬ d.donor = k) :
    donorAmountSum k (pre ++ [d]) = donorAmountSum k pre := by
  simp [donorAmountSum, List.filter_append, hk]

lemma donorCount_append_self {d : DonationRec α} {k : String}
    (pre : List (DonationRec α)) (hk : d.donor = k) :
    donorCount k (pre ++ [d]) = donorCount k pre + 1 := by
  simp [donorCount, List.filter_append, hk]

lemma donorCount_append_ne {d : DonationRec α} {k : String}
    (pre : List (DonationRec α)) (hk : ¬ d.donor = k) :
    donorCount k (pre ++ [d]) = donorCount k pre := by
  simp [donorCount, List.filter_append, hk]

lemma donorMaxDate_append_self {d : DonationRec DateValue} {k : String} {t : Nat}
    (pre : List (DonationRec DateValue)) (hk : d.donor = k)
    (hd : d.date = some (DateValue.ts t)) :
    donorMaxDate k (pre ++ [d]) = max (donorMaxDate k pre) t := by
  simp [donorMaxDate, List.filter_append, hk, List.foldl_append, natDate, hd]

lemma donorMaxDate_append_ne {d : DonationRec DateValue} {k : String}
    (pre : List (DonationRec DateValue)) (hk : ¬ d.donor = k) :
    donorMaxDate k (pre ++ [d]) = donorMaxDate k pre := by
  simp [donorMaxDate, List.filter_append, hk]

lemma filter_donor_eq_nil {k : String} {pre : List (DonationRec α)}
    (h : k ∉ pre.map DonationRec.donor) :
    pre.filter (fun d => d.donor == k) = [] := by
  refine List.filter_eq_nil_iff.mpr ?_
  intro d hd hbeq
  exact h (List.mem_map.mpr ⟨d, hd, by simpa using hbeq⟩)

lemma donorAmountSum_of_not_mem {k : String} {pre : List (DonationRec α)}
    (h : k ∉ pre.map DonationRec.donor) : donorAmountSum k pre = 0 := by
  simp [donorAmountSum, filter_donor_eq_nil h]

lemma donorCount_of_not_mem {k : String} {pre : List (DonationRec α)}
    (h : k ∉ pre.map DonationRec.donor) : donorCount k pre = 0 := by
  simp [donorCount, filter_donor_eq_nil h]

lemma donorMaxDate_of_not_mem {k : String} {pre : List (DonationRec DateValue)}
    (h : k ∉ pre.map DonationRec.donor) : donorMaxDate k pre = 0 := by
  simp [donorMaxDate, filter_donor_eq_nil h]

lemma sortByTotal_pairwise (l : List (DonorSummary α)) :
    (sortByTotal l).Pairwise (fun a b => b.totalAmount ≤ a.totalAmount) := by
  suffices h : ∀ acc : List (DonorSummary α),
      acc.Pairwise (fun a b => b.totalAmount ≤ a.totalAmount) →
      (l.foldl (fun acc s => insertByTotal s acc) acc).Pairwise
        (fun a b => b.totalAmount ≤ a.totalAmount) by
    exact h [] (by simp)
  induction l with
  | nil => intro acc hacc; simpa using hacc
  | cons x xs ih =>
    intro acc hacc
    simp only [List.foldl_cons]
    exact ih _ (pairwise_insertByTotal hacc)

lemma applyDonation_new {m : List (String × DonorSummary DateValue)}
    {d : DonationRec DateValue} {t : Nat}
    (hf : findEntry m d.donor = none) (hd : d.date = some (DateValue.ts t)) :
    applyDonation toDateV truthyV m d
      = some (setEntry m d.donor
          ⟨d.donor, 0 + d.amount, some (DateValue.ts t), 0 + 1⟩) := by
  simp [applyDonation, hf, emptySummary, updateLastDonation, hd]

lemma applyDonation_existing {m : List (String × DonorSummary DateValue)}
    {d : DonationRec DateValue} {s0 : DonorSummary DateValue} {m0 t : Nat}
    (hf : findEntry m d.donor = some s0)
    (hl : s0.lastDonation = some (DateValue.ts m0))
    (hd : d.date = some (DateValue.ts t)) :
    applyDonation toDateV truthyV m d
      = some (setEntry m d.donor
          ⟨d.donor, s0.totalAmount + d.amount, some (DateValue.ts (max m0 t)),
            s0.donationCount + 1⟩) := by
  by_cases h : m0 < t
  · simp [applyDonation, hf, updateLastDonation, hl, hd, truthyV, toDateV, h,
      Nat.max_eq_right (Nat.le_of_lt h)]
  · simp [applyDonation, hf, updateLastDonation, hl, hd, truthyV, toDateV, h,
      Nat.max_eq_left (Nat.le_of_not_lt h)]

/-- Invariant of the `forEach` fold: after processing the prefix `pre`, the
map's keys are exactly the donors seen so far (no duplicates), and every
entry holds that donor's running total, count, and latest timestamp. -/
def MapInv (pre : List (DonationRec DateValue))
    (m : List (String × DonorSummary DateValue)) : Prop :=
  (m.map Prod.fst).Nodup ∧
  (∀ k, (findEntry m k).isSome ↔ k ∈ pre.map DonationRec.donor) ∧
  (∀ k s, findEntry m k = some s →
    s.name = k ∧ s.totalAmount = donorAmountSum k pre ∧
    s.donationCount = donorCount k pre ∧
    s.lastDonation = some (DateValue.ts (donorMaxDate k pre)))

lemma applyDonation_inv {pre : List (DonationRec DateValue)}
    {m : List (String × DonorSummary DateValue)}
    {d : DonationRec DateValue} {t : Nat}
    (hInv : MapInv pre m) (hd : d.date = some (DateValue.ts t)) :
    ∃ m2, applyDonation toDateV truthyV m d = some m2 ∧
      MapInv (pre ++ [d]) m2 := by
  obtain ⟨hnd, hdom, hval⟩ := hInv
  rcases hfe : findEntry m d.donor with _ | s0
  · -- donor seen for the first time
    have hnotmem : d.donor ∉ pre.map DonationRec.donor := by
      intro hmem
      have h1 := (hdom d.donor).mpr hmem
      rw [hfe] at h1; simp at h1
    refine ⟨_, applyDonation_new hfe hd, ?_, ?_, ?_⟩
    · rw [map_fst_setEntry_new hfe]
      refine List.Nodup.append hnd (List.nodup_singleton _) ?_
      intro a ha hb
      rw [List.mem_singleton] at hb
      subst hb
      exact (findEntry_eq_none_iff.mp hfe) ha
    · intro k
      by_cases hk : k = d.donor
      · subst hk
        simp [findEntry_setEntry_self]
      · rw [findEntry_setEntry_ne hk]
        rw [hdom k]
        simp [hk]
    · intro k s hs
      by_cases hk : k = d.donor
      · subst hk
        rw [findEntry_setEntry_self] at hs
        cases hs
        refine ⟨rfl, ?_, ?_, ?_⟩
        · rw [donorAmountSum_append_self pre rfl,
            donorAmountSum_of_not_mem hnotmem]
        · rw [donorCount_append_self pre rfl, donorCount_of_not_mem hnotmem]
        · rw [donorMaxDate_append_self pre rfl hd,
            donorMaxDate_of_not_mem hnotmem]
          simp
      · rw [findEntry_setEntry_ne hk] at hs
        obtain ⟨e1, e2, e3, e4⟩ := hval k s hs
        have hne : ¬ d.donor = k := fun h => hk h.symm
        exact ⟨e1, by rw [donorAmountSum_append_ne pre hne]; exact e2,
          by rw [donorCount_append_ne pre hne]; exact e3,
          by rw [donorMaxDate_append_ne pre hne]; exact e4⟩
  · -- donor already present
    obtain ⟨e1, e2, e3, e4⟩ := hval d.donor s0 hfe
    have hmem : d.donor ∈ pre.map DonationRec.donor := by
      rw [← hdom d.donor, hfe]; rfl
    refine ⟨_, applyDonation_existing hfe e4 hd, ?_, ?_, ?_⟩
    · rw [map_fst_setEntry_found hfe]; exact hnd
    · intro k
      by_cases hk : k = d.donor
      · subst hk
        simp [findEntry_setEntry_self, hmem]
      · rw [findEntry_setEntry_ne hk, hdom k]
        simp [hk]
    · intro k s hs
      by_cases hk : k = d.donor
      · subst hk
        rw [findEntry_setEntry_self] at hs
        cases hs
        refine ⟨rfl, ?_, ?_, ?_⟩
        · rw [donorAmountSum_append_self pre rfl, e2]
        · rw [donorCount_append_self pre rfl, e3]
        · rw [donorMaxDate_append_self pre rfl hd]
      · rw [findEntry_setEntry_ne hk] at hs
        obtain ⟨f1, f2, f3, f4⟩ := hval k s hs
        have hne : ¬ d.donor = k := fun h => hk h.symm
        exact ⟨f1, by rw [donorAmountSum_append_ne pre hne]; exact f2,
          by rw [donorCount_append_ne pre hne]; exact f3,
          by rw [donorMaxDate_append_ne pre hne]; exact f4⟩

lemma buildDonorMap_inv :
    ∀ (ds pre : List (DonationRec DateValue))
      (m : List (String × DonorSummary DateValue)),
      MapInv pre m → NativeDated ds →
      ∃ m2, buildDonorMap toDateV truthyV m ds = some m2 ∧
        MapInv (pre ++ ds) m2
  | [], pre, m, hInv, _ => ⟨m, rfl, by simpa using hInv⟩
  | d :: ds, pre, m, hInv, hnat => by
    obtain ⟨t, ht⟩ := hnat d (List.mem_cons_self _ _)
    obtain ⟨m2, hm2, hInv2⟩ := applyDonation_inv hInv ht
    obtain ⟨m3, hm3, hInv3⟩ := buildDonorMap_inv ds (pre ++ [d]) m2 hInv2
      (fun x hx => hnat x (List.mem_cons_of_mem _ hx))
    refine ⟨m3, ?_, by simpa using hInv3⟩
    simp only [buildDonorMap, hm2, hm3]

lemma mapInv_nil : MapInv [] ([] : List (String × DonorSummary DateValue)) := by
  refine ⟨by simp, ?_, ?_⟩
  · intro k; simp [findEntry]
  · intro k s hs; simp [findEntry] at hs

lemma findEntry_isSome_iff_mem {m : List (String × DonorSummary α)} {k : String} :
    (findEntry m k).isSome ↔ k ∈ m.map Prod.fst := by
  cases h : findEntry m k with
  | none => simp [findEntry_eq_none_iff.mp h]
  | some s =>
    simp only [Option.isSome_some, true_iff]
    by_contra hn
    rw [findEntry_eq_none_iff.mpr hn] at h
    exact absurd h (by simp)

/-- Concrete example input of spec §8.4, with d1 = 2, d2 = 1, d3 = 3
(so d3 > d1 > d2). -/
def exampleDonations : List (DonationRec DateValue) :=
  [⟨"A", 100, some (.ts 2)⟩, ⟨"B", 50, some (.ts 1)⟩, ⟨"A", 30, some (.ts 3)⟩]

/-- C2: aggregation correctness of `processDonations` — one summary per
distinct donor name, carrying that donor's amount sum, donation count, and
latest timestamp, sorted by `totalAmount` descending; and the concrete
three-donation example of the spec evaluates to the stated output. -/
theorem processDonations_aggregation (ds : List (DonationRec DateValue))
    (hnat : NativeDated ds) :
    ∃ out, processDonations ds = some out ∧
      (out.map DonorSummary.name).Nodup ∧
      (∀ k, k ∈ out.map DonorSummary.name ↔ k ∈ ds.map DonationRec.donor) ∧
      (∀ s ∈ out, s.totalAmount = donorAmountSum s.name ds ∧
        s.donationCount = donorCount s.name ds ∧
        s.lastDonation = some (DateValue.ts (donorMaxDate s.name ds))) ∧
      out.Pairwise (fun a b => b.totalAmount ≤ a.totalAmount) ∧
      processDonations exampleDonations
        = some [⟨"A", 130, some (.ts 3), 2⟩, ⟨"B", 50, some (.ts 1), 1⟩] := by
  obtain ⟨m, hm, hInv⟩ := buildDonorMap_inv ds [] [] mapInv_nil hnat
  rw [List.nil_append] at hInv
  obtain ⟨hnd, hdom, hval⟩ := hInv
  refine ⟨sortByTotal (m.map Prod.snd), ?_, ?_, ?_, ?_, ?_, by decide⟩
  · simp [processDonations, processDonationsG, hm]
  · have hnames : (m.map Prod.snd).map DonorSummary.name = m.map Prod.fst := by
      rw [List.map_map]
      refine List.map_congr_left ?_
      intro p hp
      exact (hval p.1 p.2 (findEntry_of_mem hnd hp)).1
    have hpn : List.Perm
        ((sortByTotal (m.map Prod.snd)).map DonorSummary.name)
        (m.map Prod.fst) := by
      rw [← hnames]
      exact (sortByTotal_perm _).map _
    exact hpn.nodup_iff.mpr hnd
  · intro k
    have hnames : (m.map Prod.snd).map DonorSummary.name = m.map Prod.fst := by
      rw [List.map_map]
      refine List.map_congr_left ?_
      intro p hp
      exact (hval p.1 p.2 (findEntry_of_mem hnd hp)).1
    have hpn : List.Perm
        ((sortByTotal (m.map Prod.snd)).map DonorSummary.name)
        (m.map Prod.fst) := by
      rw [← hnames]
      exact (sortByTotal_perm _).map _
    rw [hpn.mem_iff, ← findEntry_isSome_iff_mem, hdom k]
  · intro s hs
    have hs2 : s ∈ m.map Prod.snd := (sortByTotal_perm _).mem_iff.mp hs
    obtain ⟨p, hp, hps⟩ := List.mem_map.mp hs2
    obtain ⟨k, s2⟩ := p
    have hf := findEntry_of_mem hnd hp
    obtain ⟨e1, e2, e3, e4⟩ := hval k s2 hf
    simp only at hps
    subst hps
    rw [e1]
    exact ⟨e2, e3, e4⟩
  · exact sortByTotal_pairwise _

/-- Witness for C2 at the spec's concrete example input. -/
theorem processDonations_aggregation_witness :
    ∃ out, processDonations exampleDonations = some out ∧
      (out.map DonorSummary.name).Nodup ∧
      (∀ k, k ∈ out.map DonorSummary.name ↔
        k ∈ exampleDonations.map DonationRec.donor) ∧
      (∀ s ∈ out, s.totalAmount = donorAmountSum s.name exampleDonations ∧
        s.donationCount = donorCount s.name exampleDonations ∧
        s.lastDonation
          = some (DateValue.ts (donorMaxDate s.name exampleDonations))) ∧
      out.Pairwise (fun a b => b.totalAmount ≤ a.totalAmount) ∧
      processDonations exampleDonations
        = some [⟨"A", 130, some (.ts 3), 2⟩, ⟨"B", 50, some (.ts 1), 1⟩] :=
  processDonations_aggregation exampleDonations (by
    intro d hd
    simp only [exampleDonations, List.mem_cons, List.not_mem_nil, or_false] at hd
    rcases hd with h | h | h
    · exact ⟨2, by rw [h]⟩
    · exact ⟨1, by rw [h]⟩
    · exact ⟨3, by rw [h]⟩)

/-- C7: equal-date tie-break.  The date payload is instantiated with
tagged instants `Nat × Nat` (instant, tag), all truthy, with `.toDate()`
returning the instant; two same-donor donations with identical instants
but distinct tags make "which donation's date object is kept" observable.
The resulting summary keeps the earlier-seen donation's date (tag `g1`):
the accumulator is updated only on a strictly greater comparison. -/
theorem processDonations_equal_date_keeps_earlier
    (don : String) (a1 a2 : Int) (t g1 g2 : Nat) :
    processDonationsG (fun p => some p.1) (fun _ => true)
      [⟨don, a1, some (t, g1)⟩, ⟨don, a2, some (t, g2)⟩]
    = some [⟨don, a1 + a2, some (t, g1), 2⟩] := by
  simp [processDonationsG, buildDonorMap, applyDonation, findEntry,
    updateLastDonation, setEntry, emptySummary, sortByTotal, insertByTotal]

/-- Every `lastDonation` value stored in the accumulator map is a native
timestamp (or absent). -/
def MapNativeOrAbsent (m : List (String × DonorSummary DateValue)) : Prop :=
  ∀ p ∈ m, ∀ x, (Prod.snd p).lastDonation = some x → ∃ t, x = DateValue.ts t

lemma updateLastDonation_native {eLast dDate : Option DateValue}
    (he : ∀ x, eLast = some x → ∃ t, x = DateValue.ts t)
    (hd : ∀ x, dDate = some x → ∃ t, x = DateValue.ts t) :
    ∃ nl, updateLastDonation toDateV truthyV eLast dDate = some nl ∧
      ∀ x, nl = some x → ∃ t, x = DateValue.ts t := by
  cases eLast with
  | none => exact ⟨dDate, rfl, hd⟩
  | some e =>
    obtain ⟨m0, hm0⟩ := he e rfl
    subst hm0
    cases dDate with
    | none =>
      refine ⟨some (.ts m0), ?_, ?_⟩
      · simp [updateLastDonation, truthyV]
      · intro x hx; cases hx; exact ⟨m0, rfl⟩
    | some d =>
      obtain ⟨t, ht⟩ := hd d rfl
      subst ht
      by_cases h : m0 < t
      · refine ⟨some (.ts t), ?_, ?_⟩
        · simp [updateLastDonation, truthyV, toDateV, h]
        · intro x hx; cases hx; exact ⟨t, rfl⟩
      · refine ⟨some (.ts m0), ?_, ?_⟩
        · simp [updateLastDonation, truthyV, toDateV, h]
        · intro x hx; cases hx; exact ⟨m0, rfl⟩

lemma buildDonorMap_total :
    ∀ (ds : List (DonationRec DateValue))
      (m : List (String × DonorSummary DateValue)),
      NativeOrAbsent ds → MapNativeOrAbsent m →
      ∃ m2, buildDonorMap toDateV truthyV m ds = some m2
  | [], m, _, _ => ⟨m, rfl⟩
  | d :: ds, m, hds, hm => by
    have hcur : ∀ x, ((findEntry m d.donor).getD
        (emptySummary d.donor)).lastDonation = some x → ∃ t, x = DateValue.ts t := by
      cases hfe : findEntry m d.donor with
      | none => intro x hx; simp [emptySummary] at hx
      | some s0 =>
        intro x hx
        exact hm (d.donor, s0) (findEntry_mem hfe) x hx
    obtain ⟨nl, hnl, hnlnat⟩ := updateLastDonation_native hcur
      (fun x hx => hds d (List.mem_cons_self _ _) x hx)
    obtain ⟨m3, hm3⟩ := buildDonorMap_total ds
      (setEntry m d.donor
        ⟨d.donor, ((findEntry m d.donor).getD (emptySummary d.donor)).totalAmount
          + d.amount, nl,
          ((findEntry m d.donor).getD (emptySummary d.donor)).donationCount + 1⟩)
      (fun x hx => hds x (List.mem_cons_of_mem _ hx))
      (by
        intro p hp x hx
        rcases mem_setEntry hp with h | h
        · subst h
          exact hnlnat x hx
        · exact hm p h x hx)
    refine ⟨m3, ?_⟩
    simp only [buildDonorMap, applyDonation, hnl, hm3]

/-- C10: totality precondition of the aggregation.  When every present
donation date is a store-native timestamp, `processDonations` returns a
result; for an input whose dates are plain strings, the unguarded
`.toDate()` in the date-comparison branch raises instead (modelled as
`none`). -/
theorem processDonations_totality :
    (∀ ds : List (DonationRec DateValue),
      NativeOrAbsent ds → (processDonations ds).isSome) ∧
    processDonations
      [⟨"A", 100, some (.str "2024-01-01")⟩, ⟨"A", 50, some (.str "2024-01-02")⟩]
    = none := by
  constructor
  · intro ds hds
    obtain ⟨m2, hm2⟩ := buildDonorMap_total ds [] hds (by intro p hp; simp at hp)
    simp [processDonations, processDonationsG, hm2]
  · decide

/-- Witness for C10: a concrete native-dated input on which the aggregation
succeeds, and the concrete string-dated input on which it raises. -/
theorem processDonations_totality_witness :
    (processDonations exampleDonations).isSome ∧
    processDonations
      [⟨"A", 100, some (.str "2024-01-01")⟩, ⟨"A", 50, some (.str "2024-01-02")⟩]
    = none :=
  ⟨processDonations_totality.1 exampleDonations (by
      intro d hd x hx
      simp only [exampleDonations, List.mem_cons, List.not_mem_nil, or_false] at hd
      rcases hd with h | h | h <;> rw [h] at hx <;>
        simp only [Option.some_inj] at hx
      · exact ⟨2, hx.symm⟩
      · exact ⟨1, hx.symm⟩
      · exact ⟨3, hx.symm⟩),
    processDonations_totality.2⟩

/-!
Paginated / searchable list fetch, embedded from `fetchDonors` in
`src/app/donors/page.tsx` (lines 84-133); `fetchExpenses` in
`src/app/expenses/page.tsx` (lines 56-104) is structurally identical
modulo the collection and search-field names, so one generic model covers
both.  A record carries the ordering field `date` (`sortField`), the
search field as a list of code units (`searchField`: `donor` resp.
`description`), and the store-assigned `id`.

The document store itself is external to the repository (Firestore).
Its read semantics is therefore modelled from the spec:
`runQuery` evaluates an `orderBy`/`where`-range/`startAfter`/`limit`
query over the collection contents, with the ordering contract of spec
§4.1 — Default mode: `sortField` descending, ties broken by `id`
ascending; PrefixSearch mode: `searchField` ascending, then `sortField`
descending, ties by `id` ascending; `startAfter(c)` resumes strictly
after `c` in the query order; `limit(P)` takes the first `P` records.
The query construction itself (which mode uses which clauses, and that
the search branch passes no `startAfter`) is taken from the source.
-/

/-- One stored record of a paginated collection. -/
structure StoreRec where
  id : Nat
  date : Nat
  sField : List Nat
  deriving DecidableEq

/-- Default-mode ordering of spec §4.1: `date` descending, ties broken by
`id` ascending (non-strict). -/
def defLe (a b : StoreRec) : Prop :=
  b.date < a.date ∨ (a.date = b.date ∧ a.id ≤ b.id)

/-- Strict version of `defLe`. -/
def defLt (a b : StoreRec) : Prop :=
  b.date < a.date ∨ (a.date = b.date ∧ a.id < b.id)

instance : DecidableRel defLe := fun a b => by
  unfold defLe; infer_instance

instance : DecidableRel defLt := fun a b => by
  unfold defLt; infer_instance

instance : IsTotal StoreRec defLe :=
  ⟨by intro a b; unfold defLe; omega⟩

instance : IsTrans StoreRec defLe :=
  ⟨by intro a b c; unfold defLe; omega⟩

/-- Strict lexicographic order on code-unit lists (JS string `<`). -/
def strLtB : List Nat → List Nat → Bool
  | [], [] => false
  | [], _ :: _ => true
  | _ :: _, [] => false
  | a :: as, b :: bs => if a < b then true else if a = b then strLtB as bs else false

/-- Non-strict lexicographic order on code-unit lists (JS string `<=`). -/
def strLe : List Nat → List Nat → Bool
  | [], _ => true
  | _ :: _, [] => false
  | a :: as, b :: bs => if a < b then true else if a = b then strLe as bs else false

/-- PrefixSearch-mode ordering of spec §4.1: `searchField` ascending, then
`sortField` descending, ties by `id` ascending. -/
def searchLe (a b : StoreRec) : Prop :=
  strLtB a.sField b.sField = true ∨ (a.sField = b.sField ∧ defLe a b)

instance : DecidableRel searchLe := fun a b => by
  unfold searchLe; infer_instance

/-- The Unicode sentinel appended to the search term by the source
(`searchTerm + MAX_UNICODE_SENTINEL`, code point 0xf8ff). -/
def sentinel : Nat := 0xf8ff

/-- Range predicate of the two `where` clauses of the search query:
`searchField >= term` and `searchField <= term + sentinel`. -/
def inSearchRange (term s : List Nat) : Bool :=
  strLe term s && strLe s (term ++ [sentinel])

/-- List prefix test: does `s` start with `term`? -/
def listStartsWith : List Nat → List Nat → Bool
  | [], _ => true
  | _ :: _, [] => false
  | a :: as, b :: bs => a = b && listStartsWith as bs

/-- Modelled from the spec: Firestore query evaluation (the store is
external to the repository).  The query shapes are the two branches of
`fetchDonors` (lines 89-109): with a nonempty search term, the two range
`where` clauses, the search ordering, and `limit P` — and no
`startAfter`, exactly as in the source; otherwise the default ordering
with `startAfter lastVisible` unless this is a new search or there is no
cursor. -/
def runQuery (coll : List StoreRec) (term : List Nat) (cursor : Option StoreRec)
    (P : Nat) (isNewSearch : Bool) : List StoreRec :=
  if term.isEmpty then
    match (if isNewSearch then none else cursor) with
    | none => (List.insertionSort defLe coll).take P
    | some c =>
      ((List.insertionSort defLe coll).filter (fun r => decide (defLt c r))).take P
  else
    (List.insertionSort searchLe
      (coll.filter (fun r => inSearchRange term r.sField))).take P

/-- The page-level fetch state: search term, pagination cursor
(`lastVisible`), accumulated list, and the `hasMore` flag. -/
structure FetchState where
  searchTerm : List Nat
  lastVisible : Option StoreRec
  allDonations : List StoreRec
  hasMore : Bool
  deriving DecidableEq

/-- One call of `fetchDonors(isNewSearch)` (lines 84-133): run the query,
replace or append the accumulated list, set `lastVisible` to the last
returned document (`docs[docs.length - 1]`, `undefined` — `none` — on an
empty page), and set `hasMore` to whether the page is full. -/
def fetchStep (coll : List StoreRec) (P : Nat) (st : FetchState)
    (isNewSearch : Bool) : FetchState :=
  let docs := runQuery coll st.searchTerm st.lastVisible P isNewSearch
  { searchTerm := st.searchTerm
    lastVisible := docs.getLast?
    allDonations := if isNewSearch then docs else st.allDonations ++ docs
    hasMore := docs.length == P }

/-- The caller's "load more" loop: while `hasMore`, call
`fetchDonors(false)` again (fuelled recursion). -/
def fetchLoop (coll : List StoreRec) (P : Nat) : Nat → FetchState → FetchState
  | 0, st => st
  | fuel + 1, st =>
    if st.hasMore then fetchLoop coll P fuel (fetchStep coll P st false) else st

/-- Initial page state: given search term, no cursor, empty accumulated
list, `hasMore` initialised to `true`. -/
def initState (term : List Nat) : FetchState := ⟨term, none, [], true⟩

/-- Full Default-mode pagination: the initial `fetchDonors(true)` load
followed by "load more" until `hasMore` is false (ample fuel). -/
def fetchAllDefault (coll : List StoreRec) (P : Nat) : FetchState :=
  fetchLoop coll P (coll.length + 2) (fetchStep coll P (initState []) true)

lemma runQuery_default_cursor (coll : List StoreRec) (c : StoreRec) (P : Nat) :
    runQuery coll [] (some c) P false
      = ((List.insertionSort defLe coll).filter
          (fun r => decide (defLt c r))).take P := rfl

lemma runQuery_default_new (coll : List StoreRec) (cursor : Option StoreRec)
    (P : Nat) : runQuery coll [] cursor P true
      = (List.insertionSort defLe coll).take P := by
  cases cursor <;> rfl

lemma sorted_pairwise_defLt {coll : List StoreRec}
    (h : (coll.map StoreRec.id).Nodup) :
    (List.insertionSort defLe coll).Pairwise defLt := by
  have h1 : (List.insertionSort defLe coll).Pairwise defLe :=
    List.sorted_insertionSort defLe coll
  have h2 : ((List.insertionSort defLe coll).map StoreRec.id).Nodup :=
    ((List.perm_insertionSort defLe coll).map StoreRec.id).nodup_iff.mpr h
  have h3 : (List.insertionSort defLe coll).Pairwise
      (fun a b => a.id ≠ b.id) := List.pairwise_map.mp h2
  exact h1.imp₂ (fun a b hle hne => by
    unfold defLe at hle; unfold defLt; omega) h3

lemma defLt_asymm {a b : StoreRec} (h : defLt a b) : ¬ defLt b a := by
  unfold defLt at *; omega

lemma defLt_irrefl (a : StoreRec) : ¬ defLt a a := by
  unfold defLt; omega

lemma filter_after (l₁ l₂ : List StoreRec) (c : StoreRec)
    (hp : (l₁ ++ [c] ++ l₂).Pairwise defLt) :
    (l₁ ++ [c] ++ l₂).filter (fun r => decide (defLt c r)) = l₂ := by
  rw [List.pairwise_append] at hp
  obtain ⟨hp1, hp2, hcross⟩ := hp
  rw [List.pairwise_append] at hp1
  obtain ⟨_, _, hcross1⟩ := hp1
  rw [List.filter_append, List.filter_append]
  have h1 : l₁.filter (fun r => decide (defLt c r)) = [] := by
    refine List.filter_eq_nil_iff.mpr ?_
    intro a ha
    simp only [decide_eq_true_eq]
    exact defLt_asymm (hcross1 a ha c (List.mem_singleton_self c))
  have h2 : [c].filter (fun r => decide (defLt c r)) = [] := by
    simp [defLt_irrefl c]
  have h3 : l₂.filter (fun r => decide (defLt c r)) = l₂ := by
    refine List.filter_eq_self.mpr ?_
    intro b hb
    simp only [decide_eq_true_eq]
    exact hcross c (List.mem_append_right l₁ (List.mem_singleton_self c)) b hb
  rw [h1, h2, h3]
  rfl

/-- Loop invariant of Default-mode pagination: the full sorted collection
splits into the accumulated list followed by the not-yet-fetched rest;
while `hasMore`, the cursor is the last accumulated record; once `hasMore`
is false nothing remains. -/
def DefaultInv (coll : List StoreRec) (st : FetchState)
    (rest : List StoreRec) : Prop :=
  st.searchTerm = [] ∧
  List.insertionSort defLe coll = st.allDonations ++ rest ∧
  (st.hasMore = true →
    st.lastVisible = st.allDonations.getLast? ∧ st.allDonations ≠ []) ∧
  (st.hasMore = false → rest = [])

lemma fetchStep_default_inv (coll : List StoreRec) (P : Nat) (st : FetchState)
    (rest : List StoreRec) (hP : 0 < P)
    (hpair : (List.insertionSort defLe coll).Pairwise defLt)
    (hinv : DefaultInv coll st rest) (hmore : st.hasMore = true) :
    DefaultInv coll (fetchStep coll P st false) (rest.drop P) ∧
    (fetchStep coll P st false).allDonations
      = st.allDonations ++ rest.take P ∧
    ((fetchStep coll P st false).hasMore = true ↔ (rest.take P).length = P) := by
  obtain ⟨hterm, hdecomp, hmoreinv, _⟩ := hinv
  obtain ⟨hlast, hne⟩ := hmoreinv hmore
  obtain ⟨c, hc⟩ : ∃ c, st.allDonations.getLast? = some c := by
    cases hh : st.allDonations.getLast? with
    | none => exact absurd (List.getLast?_eq_none_iff.mp hh) hne
    | some c => exact ⟨c, rfl⟩
  obtain ⟨ys, hys⟩ := List.getLast?_eq_some_iff.mp hc
  have hpair2 : (ys ++ [c] ++ rest).Pairwise defLt := by
    rw [← hys, ← hdecomp]; exact hpair
  have hdocs : runQuery coll st.searchTerm st.lastVisible P false
      = rest.take P := by
    rw [hterm, hlast, hc, runQuery_default_cursor, hdecomp, hys,
      filter_after ys rest c hpair2]
  have hfields : fetchStep coll P st false
      = ⟨st.searchTerm, (rest.take P).getLast?,
          st.allDonations ++ rest.take P, (rest.take P).length == P⟩ := by
    simp [fetchStep, hdocs]
  rw [hfields]
  refine ⟨⟨hterm, ?_, ?_, ?_⟩, rfl, by simp⟩
  · rw [hdecomp]
    show st.allDonations ++ rest
      = st.allDonations ++ List.take P rest ++ List.drop P rest
    rw [List.append_assoc, List.take_append_drop]
  · intro hm
    simp only [beq_iff_eq] at hm
    have htne : rest.take P ≠ [] := by
      intro hnil; rw [hnil] at hm; simp at hm; omega
    constructor
    · obtain ⟨x, hx⟩ : ∃ x, (rest.take P).getLast? = some x := by
        cases hh : (rest.take P).getLast? with
        | none => exact absurd (List.getLast?_eq_none_iff.mp hh) htne
        | some x => exact ⟨x, rfl⟩
      simp only [List.getLast?_append, hx, Option.or_some]
    · simp [htne]
  · intro hm
    simp only [beq_eq_false_iff_ne] at hm
    rw [List.length_take] at hm
    have hlen : rest.length < P := by omega
    exact List.drop_eq_nil_of_le (Nat.le_of_lt hlen)

lemma fetchStep_first_inv (coll : List StoreRec) (P : Nat) (hP : 0 < P) :
    DefaultInv coll (fetchStep coll P (initState []) true)
      ((List.insertionSort defLe coll).drop P) := by
  have hdocs : runQuery coll [] none P true
      = (List.insertionSort defLe coll).take P := runQuery_default_new coll none P
  have hfields : fetchStep coll P (initState []) true
      = ⟨[], ((List.insertionSort defLe coll).take P).getLast?,
          (List.insertionSort defLe coll).take P,
          ((List.insertionSort defLe coll).take P).length == P⟩ := by
    simp [fetchStep, initState, hdocs]
  rw [hfields]
  refine ⟨rfl, by rw [List.take_append_drop], ?_, ?_⟩
  · intro hm
    simp only [beq_iff_eq] at hm
    have htne : (List.insertionSort defLe coll).take P ≠ [] := by
      intro hnil; rw [hnil] at hm; simp at hm; omega
    exact ⟨rfl, htne⟩
  · intro hm
    simp only [beq_eq_false_iff_ne] at hm
    rw [List.length_take] at hm
    have hlen : (List.insertionSort defLe coll).length < P := by omega
    exact List.drop_eq_nil_of_le (Nat.le_of_lt hlen)

lemma fetchLoop_default (coll : List StoreRec) (P : Nat) (hP : 0 < P)
    (hpair : (List.insertionSort defLe coll).Pairwise defLt) :
    ∀ (fuel : Nat) (st : FetchState) (rest : List StoreRec),
      DefaultInv coll st rest → rest.length + 2 ≤ fuel →
      (fetchLoop coll P fuel st).allDonations = List.insertionSort defLe coll ∧
      (fetchLoop coll P fuel st).hasMore = false := by
  intro fuel
  induction fuel with
  | zero => intro st rest _ hf; omega
  | succ f ih =>
    intro st rest hinv hf
    cases hmore : st.hasMore with
    | false =>
      have hrest : rest = [] := hinv.2.2.2 hmore
      rw [fetchLoop, hmore]
      simp only [Bool.false_eq_true, if_false]
      subst hrest
      exact ⟨by rw [hinv.2.1, List.append_nil], hmore⟩
    | true =>
      obtain ⟨hinv2, heq, hiff⟩ :=
        fetchStep_default_inv coll P st rest hP hpair hinv hmore
      rw [fetchLoop, hmore]
      simp only [if_true]
      by_cases hrest : rest = []
      · subst hrest
        have hm2 : (fetchStep coll P st false).hasMore = false := by
          cases hm : (fetchStep coll P st false).hasMore with
          | false => rfl
          | true =>
            have := hiff.mp hm
            simp at this
            omega
        obtain ⟨g, hg⟩ : ∃ g, f = g + 1 := by
          refine ⟨f - 1, ?_⟩; omega
        subst hg
        rw [fetchLoop, hm2]
        simp only [Bool.false_eq_true, if_false]
        refine ⟨?_, hm2⟩
        rw [heq]
        simp only [List.take_nil, List.append_nil]
        rw [hinv.2.1, List.append_nil]
      · refine ih (fetchStep coll P st false) (rest.drop P) hinv2 ?_
        have h1 : rest.length ≥ 1 := by
          cases rest with
          | nil => exact absurd rfl hrest
          | cons a l => simp
        have h2 := List.length_drop P rest
        omega

/-- C1 (amended to Default mode): starting from the initial load and
calling "load more" with the returned cursor until `hasMore` is false
accumulates a permutation of the whole collection's ids, with no id
repeated — every record exactly once. -/
theorem fetchAllDefault_complete (coll : List StoreRec) (P : Nat)
    (hP : 0 < P) (hids : (coll.map StoreRec.id).Nodup) :
    (fetchAllDefault coll P).hasMore = false ∧
    List.Perm ((fetchAllDefault coll P).allDonations.map StoreRec.id)
      (coll.map StoreRec.id) ∧
    ((fetchAllDefault coll P).allDonations.map StoreRec.id).Nodup := by
  have hpair := sorted_pairwise_defLt hids
  have hfuel : ((List.insertionSort defLe coll).drop P).length + 2
      ≤ coll.length + 2 := by
    have h1 := List.length_drop P (List.insertionSort defLe coll)
    have h2 := List.length_insertionSort defLe coll
    omega
  obtain ⟨hall, hmore⟩ := fetchLoop_default coll P hP hpair (coll.length + 2)
    (fetchStep coll P (initState []) true)
    ((List.insertionSort defLe coll).drop P)
    (fetchStep_first_inv coll P hP) hfuel
  have hperm : List.Perm
      ((fetchAllDefault coll P).allDonations.map StoreRec.id)
      (coll.map StoreRec.id) := by
    rw [fetchAllDefault, hall]
    exact (List.perm_insertionSort defLe coll).map StoreRec.id
  exact ⟨hmore, hperm, hperm.nodup_iff.mpr hids⟩

/-- Witness for C1's amended theorem on a concrete 5-record collection
with pageSize 2 (a tie in `date` included). -/
theorem fetchAllDefault_complete_witness :
    (fetchAllDefault [⟨1, 10, []⟩, ⟨2, 30, []⟩, ⟨3, 20, []⟩, ⟨4, 30, []⟩,
        ⟨5, 5, []⟩] 2).hasMore = false ∧
    List.Perm ((fetchAllDefault [⟨1, 10, []⟩, ⟨2, 30, []⟩, ⟨3, 20, []⟩,
        ⟨4, 30, []⟩, ⟨5, 5, []⟩] 2).allDonations.map StoreRec.id)
      (([⟨1, 10, []⟩, ⟨2, 30, []⟩, ⟨3, 20, []⟩, ⟨4, 30, []⟩,
        ⟨5, 5, []⟩] : List StoreRec).map StoreRec.id) ∧
    ((fetchAllDefault [⟨1, 10, []⟩, ⟨2, 30, []⟩, ⟨3, 20, []⟩, ⟨4, 30, []⟩,
        ⟨5, 5, []⟩] 2).allDonations.map StoreRec.id).Nodup :=
  fetchAllDefault_complete _ 2 (by decide) (by decide)

/-- C1 counterexample: in PrefixSearch mode the source builds the query
without `startAfter`, so the second "load more" call (made with the
cursor returned by the first call, which the code then ignores) re-fetches
and re-appends the first page: with 2 matching records and pageSize 1 the
accumulated ids are `[1, 1]` — record 1 twice, record 2 never — and
`hasMore` stays `true`, refuting completeness "in either mode". -/
theorem searchMode_pagination_counterexample :
    ((fetchStep [⟨1, 100, [65]⟩, ⟨2, 90, [65, 66]⟩] 1
        (fetchStep [⟨1, 100, [65]⟩, ⟨2, 90, [65, 66]⟩] 1
          (initState [65]) true) false).allDonations.map StoreRec.id
      = [1, 1]) ∧
    ¬ ((fetchStep [⟨1, 100, [65]⟩, ⟨2, 90, [65, 66]⟩] 1
        (fetchStep [⟨1, 100, [65]⟩, ⟨2, 90, [65, 66]⟩] 1
          (initState [65]) true) false).allDonations.map StoreRec.id).Nodup ∧
    (fetchStep [⟨1, 100, [65]⟩, ⟨2, 90, [65, 66]⟩] 1
        (fetchStep [⟨1, 100, [65]⟩, ⟨2, 90, [65, 66]⟩] 1
          (initState [65]) true) false).hasMore = true := by
  decide

/-- C3: concatenating all Default-mode pages yields a sequence
non-increasing in `date` (`sortField`), with ties broken by strictly
ascending `id`. -/
theorem fetchAllDefault_ordered (coll : List StoreRec) (P : Nat)
    (hP : 0 < P) (hids : (coll.map StoreRec.id).Nodup) :
    (fetchAllDefault coll P).allDonations.Pairwise
      (fun a b => b.date < a.date ∨ (a.date = b.date ∧ a.id < b.id)) := by
  have hpair := sorted_pairwise_defLt hids
  have hfuel : ((List.insertionSort defLe coll).drop P).length + 2
      ≤ coll.length + 2 := by
    have h1 := List.length_drop P (List.insertionSort defLe coll)
    have h2 := List.length_insertionSort defLe coll
    omega
  obtain ⟨hall, _⟩ := fetchLoop_default coll P hP hpair (coll.length + 2)
    (fetchStep coll P (initState []) true)
    ((List.insertionSort defLe coll).drop P)
    (fetchStep_first_inv coll P hP) hfuel
  rw [fetchAllDefault, hall]
  exact hpair

/-- Witness for C3 on a concrete collection with a `date` tie. -/
theorem fetchAllDefault_ordered_witness :
    (fetchAllDefault [⟨2, 7, []⟩, ⟨1, 7, []⟩, ⟨3, 9, []⟩] 2).allDonations.Pairwise
      (fun a b => b.date < a.date ∨ (a.date = b.date ∧ a.id < b.id)) :=
  fetchAllDefault_ordered _ 2 (by decide) (by decide)

lemma strLe_between_startsWith :
    ∀ (term s : List Nat), strLe term s = true →
      strLe s (term ++ [sentinel]) = true → listStartsWith term s = true
  | [], _, _, _ => rfl
  | c :: cs, s, h1, h2 => by
    cases s with
    | nil => simp [strLe] at h1
    | cons x xs =>
      by_cases hcx : c < x
      · have hxc : ¬ x < c := by omega
        have hne : ¬ x = c := by omega
        simp [strLe, hxc, hne] at h2
      · by_cases hce : c = x
        · subst hce
          simp only [strLe, lt_irrefl, if_false, if_pos rfl] at h1 h2
          have h2' : strLe xs (cs ++ [sentinel]) = true := by
            simpa using h2
          simp only [listStartsWith, Bool.and_eq_true, decide_eq_true_eq]
          exact ⟨by simp, strLe_between_startsWith cs xs (by simpa using h1) h2'⟩
        · simp [strLe, hcx, hce] at h1

/-- C4: in PrefixSearch mode every record of a returned page has a
`searchField` that starts with the search term — the two range `where`
clauses `[term, term + sentinel]` admit only strings with `term` as a
(case-sensitive) prefix. -/
theorem searchPage_startsWith (coll : List StoreRec) (term : List Nat)
    (cursor : Option StoreRec) (P : Nat) (b : Bool) (r : StoreRec)
    (hterm : term ≠ []) (hr : r ∈ runQuery coll term cursor P b) :
    listStartsWith term r.sField = true := by
  have he : term.isEmpty = false := by
    cases term with
    | nil => exact absurd rfl hterm
    | cons a l => rfl
  have hq : runQuery coll term cursor P b
      = (List.insertionSort searchLe
          (coll.filter (fun x => inSearchRange term x.sField))).take P := by
    simp [runQuery, he]
  rw [hq] at hr
  have hr2 : r ∈ List.insertionSort searchLe
      (coll.filter (fun x => inSearchRange term x.sField)) :=
    List.take_subset P _ hr
  have hr3 : r ∈ coll.filter (fun x => inSearchRange term x.sField) :=
    (List.mem_insertionSort searchLe).mp hr2
  have hr4 : inSearchRange term r.sField = true :=
    (List.mem_filter.mp hr3).2
  simp only [inSearchRange, Bool.and_eq_true] at hr4
  exact strLe_between_startsWith term r.sField hr4.1 hr4.2

/-- Witness for C4: the record with `searchField` "AB" is returned for
search term "A" and indeed starts with it. -/
theorem searchPage_startsWith_witness :
    listStartsWith [65] (⟨1, 5, [65, 66]⟩ : StoreRec).sField = true :=
  searchPage_startsWith [⟨1, 5, [65, 66]⟩] [65] none 10 true ⟨1, 5, [65, 66]⟩
    (by decide) (by decide)

/-- C5 (amended): in PrefixSearch mode the cursor is ignored — the search
branch of the source builds its query without `startAfter`, so a call
with a stale Default-mode cursor succeeds and returns exactly what the
call with cursor `None` returns; no `InvalidCursor` failure exists. -/
theorem searchMode_ignores_cursor (coll : List StoreRec) (P : Nat)
    (term : List Nat) (c1 c2 : Option StoreRec) (allD : List StoreRec)
    (hm : Bool) (b : Bool) (hterm : term ≠ []) :
    fetchStep coll P ⟨term, c1, allD, hm⟩ b
      = fetchStep coll P ⟨term, c2, allD, hm⟩ b := by
  have he : term.isEmpty = false := by
    cases term with
    | nil => exact absurd rfl hterm
    | cons a l => rfl
  simp [fetchStep, runQuery, he]

/-- Witness for C5's amended theorem: a stale Default-mode cursor and a
reset (`none`) cursor produce identical results on a concrete search. -/
theorem searchMode_ignores_cursor_witness :
    fetchStep [⟨1, 100, [65]⟩, ⟨2, 90, [66]⟩] 10
        ⟨[65], some ⟨2, 90, [66]⟩, [], true⟩ true
      = fetchStep [⟨1, 100, [65]⟩, ⟨2, 90, [66]⟩] 10
        ⟨[65], none, [], true⟩ true :=
  searchMode_ignores_cursor [⟨1, 100, [65]⟩, ⟨2, 90, [66]⟩] 10 [65]
    (some ⟨2, 90, [66]⟩) none [] true true (by decide)

/-- C5 counterexample: a PrefixSearch call carrying a cursor obtained
under Default-mode ordering does not fail — it silently succeeds,
returning the first page of the search ordering (record 1), with the
stale cursor simply discarded in the result state. -/
theorem staleCursor_search_counterexample :
    fetchStep [⟨1, 100, [65]⟩, ⟨2, 90, [66]⟩] 10
        ⟨[65], some ⟨2, 90, [66]⟩, [], true⟩ true
      = ⟨[65], some ⟨1, 100, [65]⟩, [⟨1, 100, [65]⟩], false⟩ := by
  decide

/-- C6 (amended): `lastVisible` (the next cursor) is the last item of the
returned page whenever the page is nonempty — also on a partial page —
and is `None` exactly on an empty page; `hasMore` equals
`items.length == pageSize`; on an empty collection the result is an empty
page with no cursor and `hasMore = false`. -/
theorem fetchStep_result_shape (coll : List StoreRec) (P : Nat)
    (st : FetchState) (b : Bool) (hP : 0 < P) :
    ((fetchStep coll P st b).lastVisible
      = (runQuery coll st.searchTerm st.lastVisible P b).getLast?) ∧
    ((fetchStep coll P st b).lastVisible = none
      ↔ runQuery coll st.searchTerm st.lastVisible P b = []) ∧
    ((fetchStep coll P st b).hasMore
      = ((runQuery coll st.searchTerm st.lastVisible P b).length == P)) ∧
    (coll = [] →
      runQuery coll st.searchTerm st.lastVisible P b = [] ∧
      (fetchStep coll P st b).lastVisible = none ∧
      (fetchStep coll P st b).hasMore = false) := by
  refine ⟨rfl, List.getLast?_eq_none_iff, rfl, ?_⟩
  intro hcoll
  subst hcoll
  have hq : runQuery [] st.searchTerm st.lastVisible P b = [] := by
    obtain ⟨term, cursor, allD, hm⟩ := st
    cases term with
    | nil =>
      cases b with
      | true => simp [runQuery]
      | false =>
        cases cursor with
        | none => simp [runQuery]
        | some c => simp [runQuery]
    | cons a l => simp [runQuery]
  refine ⟨hq, ?_, ?_⟩
  · simp [fetchStep, hq]
  · simp only [fetchStep, hq, List.length_nil]
    simp only [beq_eq_false_iff_ne]
    omega

/-- Witness for C6's amended theorem on the empty collection. -/
theorem fetchStep_result_shape_witness :
    ((fetchStep [] 10 (initState []) true).lastVisible
      = (runQuery [] (initState []).searchTerm (initState []).lastVisible
          10 true).getLast?) ∧
    ((fetchStep [] 10 (initState []) true).lastVisible = none
      ↔ runQuery [] (initState []).searchTerm (initState []).lastVisible
          10 true = []) ∧
    ((fetchStep [] 10 (initState []) true).hasMore
      = ((runQuery [] (initState []).searchTerm (initState []).lastVisible
          10 true).length == 10)) ∧
    (([] : List StoreRec) = [] →
      runQuery [] (initState []).searchTerm (initState []).lastVisible
        10 true = [] ∧
      (fetchStep [] 10 (initState []) true).lastVisible = none ∧
      (fetchStep [] 10 (initState []) true).hasMore = false) :=
  fetchStep_result_shape [] 10 (initState []) true (by decide)

/-- C6 counterexample: a partial page (1 record, pageSize 10) still sets
the next cursor to its last item — `some` record, not `None` — refuting
"nextCursor = Some(last) iff the page contains exactly pageSize items". -/
theorem partialPage_cursor_counterexample :
    ((fetchStep [⟨7, 5, []⟩] 10 (initState []) true).allDonations.length
      = 1) ∧
    (1 : Nat) ≠ 10 ∧
    (fetchStep [⟨7, 5, []⟩] 10 (initState []) true).lastVisible
      = some ⟨7, 5, []⟩ := by
  decide

/-!
Donation write path, embedded from `DonationForm` (`src/unnamed/part_005`).
`handleSubmit` (lines 43-76) itself performs no amount check: the
rejection of bad amounts comes from the constraints declared on the form
fields (lines 111-123): the amount input is `type="number" required
min="1"`, and `donor`/`purpose` are `required`.  A browser submits the
form — running `handleSubmit` — only when constraint validation passes,
surfacing the error inline otherwise; `submitDonation` models that
submission pipeline.  The amount field's numeric value is modelled as
`Option Int` (`none` = empty/unparseable), matching `parseInt` of a
number-input value. -/

/-- Form state of `DonationForm` (`formData`, lines 17-22). -/
structure DonationFormData where
  donor : String
  amount : Option Int
  purpose : String
  notes : String
  deriving DecidableEq

/-- Constraint validation from the declared input attributes:
`donor` required, `amount` required with `min="1"`, `purpose` required. -/
def formConstraintsOk (f : DonationFormData) : Bool :=
  f.donor != "" &&
  (match f.amount with
   | none => false
   | some n => decide (1 ≤ n)) &&
  f.purpose != ""

/-- A store write produced by `handleSubmit`: `addDoc` for a new donation
(server timestamp attached by the store) or `updateDoc` for an existing
one. -/
inductive DonationWrite where
  | create (donor : String) (amount : Int) (purpose : String)
      (notes : Option String)
  | update (docId : String) (donor : String) (amount : Int)
      (purpose : String) (notes : Option String)
  deriving DecidableEq

/-- Amount carried by a write. -/
def writeAmount : DonationWrite → Int
  | .create _ a _ _ => a
  | .update _ _ a _ _ => a

/-- Form submission: constraint validation gates `handleSubmit`
(lines 43-76); on success the write carries `parseInt(formData.amount)`,
`notes || null`, and targets `updateDoc` when editing an existing
donation, `addDoc` otherwise.  `none` models a submission rejected by
validation (no write attempted). -/
def submitDonation (f : DonationFormData) (existing : Option String) :
    Option DonationWrite :=
  if formConstraintsOk f then
    match f.amount with
    | none => none
    | some n =>
      let notes := if f.notes = "" then none else some f.notes
      some (match existing with
        | some docId => .update docId f.donor n f.purpose notes
        | none => .create f.donor n f.purpose notes)
  else none

/-- C8: a negative amount never reaches the store — the submission is
rejected by validation before any write — and every write that is
attempted (create or update) carries a non-negative (indeed positive)
amount, preserving the stored invariant `amount >= 0`. -/
theorem donation_write_validation :
    (∀ (f : DonationFormData) (existing : Option String) (n : Int),
      f.amount = some n → n < 0 → submitDonation f existing = none) ∧
    (∀ (f : DonationFormData) (existing : Option String) (w : DonationWrite),
      submitDonation f existing = some w → 0 ≤ writeAmount w) := by
  constructor
  · intro f existing n hz hneg
    have hko : formConstraintsOk f = false := by
      simp only [formConstraintsOk, hz]
      have : decide (1 ≤ n) = false := by
        simp only [decide_eq_false_iff_not]
        omega
      simp [this]
    simp [submitDonation, hko]
  · intro f existing w hw
    unfold submitDonation at hw
    by_cases hok : formConstraintsOk f = true
    · rw [if_pos hok] at hw
      cases hz : f.amount with
      | none => rw [hz] at hw; cases hw
      | some n =>
        rw [hz] at hw
        have hn : 1 ≤ n := by
          simp only [formConstraintsOk, hz, Bool.and_eq_true,
            decide_eq_true_eq] at hok
          exact hok.1.2
        simp only [Option.some_inj] at hw
        cases existing with
        | none => rw [← hw]; simpa [writeAmount] using by omega
        | some d => rw [← hw]; simpa [writeAmount] using by omega
    · rw [if_neg hok] at hw
      cases hw

/-- Witness for C8: a negative-amount submission is rejected, and a
concrete valid submission writes amount 100 ≥ 0. -/
theorem donation_write_validation_witness :
    submitDonation ⟨"A", some (-5), "General Fund", ""⟩ none = none ∧
    0 ≤ writeAmount (DonationWrite.create "A" 100 "General Fund" none) :=
  ⟨donation_write_validation.1 ⟨"A", some (-5), "General Fund", ""⟩ none
      (-5) rfl (by decide),
    donation_write_validation.2 ⟨"A", some 100, "General Fund", ""⟩ none
      (DonationWrite.create "A" 100 "General Fund" none) (by decide)⟩

/-!
WordPress content sync, embedded from `syncWordPressData`
(`src/unnamed/part_001`, lines 108-155).  For each fetched post the loop
body queries the `wordpress_posts` collection for documents whose `wp_id`
equals the post's id; if none exists it `addDoc`s a new document (the
store assigns a fresh document id), otherwise it `updateDoc`s the first
matching document in place.  The store ops (`where`-equality query,
`addDoc`, `updateDoc`) are modelled over the collection contents with
their standard document-store meaning. -/

/-- A fetched WordPress post (fields used by the sync). -/
structure WpPost where
  id : Int
  title : String
  content : String
  date : String
  modified : String
  slug : String
  deriving DecidableEq

/-- The document payload written by the sync (`postData`, lines 122-130). -/
structure WpDocData where
  wp_id : Int
  title : String
  content : String
  date : String
  last_modified : String
  slug : String
  synced_at : String
  deriving DecidableEq

/-- Payload built from a post at sync time `now`. -/
def postData (p : WpPost) (now : String) : WpDocData :=
  ⟨p.id, p.title, p.content, p.date, p.modified, p.slug, now⟩

/-- A stored document: store-assigned id plus payload. -/
structure WpDoc where
  docId : Nat
  data : WpDocData
  deriving DecidableEq

/-- Loop body of `syncWordPressData` for one post (lines 117-142):
query by `wp_id`; empty result → `addDoc` (with the store-chosen fresh
`newId`); otherwise `updateDoc` on `querySnapshot.docs[0]`. -/
def syncPost (store : List WpDoc) (p : WpPost) (newId : Nat) (now : String) :
    List WpDoc :=
  match store.filter (fun d => d.data.wp_id == p.id) with
  | [] => store ++ [⟨newId, postData p now⟩]
  | m0 :: _ =>
    store.map (fun d =>
      if d.docId == m0.docId then { d with data := postData p now } else d)

/-- Number of stored documents for a given source post id. -/
def wpCount (store : List WpDoc) (pid : Int) : Nat :=
  (store.filter (fun d => d.data.wp_id == pid)).length

/-- C9: syncing the same post twice into a store that does not yet hold it
leaves exactly one document for that post id — the second run updates the
existing document in place instead of adding a duplicate. -/
theorem syncPost_idempotent (store : List WpDoc) (p : WpPost)
    (newId1 newId2 : Nat) (now1 now2 : String)
    (h0 : wpCount store p.id = 0)
    (hfresh : newId1 ∉ store.map WpDoc.docId) :
    wpCount (syncPost (syncPost store p newId1 now1) p newId2 now2) p.id
      = 1 := by
  have hnil : store.filter (fun d => d.data.wp_id == p.id) = [] :=
    List.length_eq_zero.mp h0
  have hstep1 : syncPost store p newId1 now1
      = store ++ [⟨newId1, postData p now1⟩] := by
    rw [syncPost, hnil]
  have hfilter1 : (store ++ [(⟨newId1, postData p now1⟩ : WpDoc)]).filter
      (fun d => d.data.wp_id == p.id)
      = [(⟨newId1, postData p now1⟩ : WpDoc)] := by
    rw [List.filter_append, hnil]
    simp [postData]
  have hstep2 : syncPost (store ++ [⟨newId1, postData p now1⟩]) p newId2 now2
      = store ++ [⟨newId1, postData p now2⟩] := by
    rw [syncPost, hfilter1]
    dsimp only
    rw [List.map_append]
    have hmap : store.map (fun d =>
        if d.docId == (⟨newId1, postData p now1⟩ : WpDoc).docId
        then { d with data := postData p now2 } else d) = store := by
      have : ∀ d ∈ store, (if d.docId == (⟨newId1,
          postData p now1⟩ : WpDoc).docId
          then { d with data := postData p now2 } else d) = d := by
        intro d hd
        have hne : d.docId ≠ newId1 := by
          intro he
          exact hfresh (List.mem_map.mpr ⟨d, hd, he⟩)
        simp [hne]
      rw [List.map_congr_left this, List.map_id']
    rw [hmap]
    simp
  rw [hstep1, hstep2, wpCount, List.filter_append, hnil]
  simp [postData]

/-- Witness for C9: syncing one concrete post twice into an empty store
leaves exactly one document. -/
theorem syncPost_idempotent_witness :
    wpCount (syncPost (syncPost [] ⟨7, "t", "c", "d", "m", "s"⟩ 1 "n1")
      ⟨7, "t", "c", "d", "m", "s"⟩ 2 "n2") (7 : Int) = 1 :=
  syncPost_idempotent [] ⟨7, "t", "c", "d", "m", "s"⟩ 1 2 "n1" "n2"
    (by decide) (by decide)

end GFG
